import Mathlib

/-!
Verification of the mesh-triangulation core of `src/athena/plymesh.py`
(class `PlyMesh.__init__` together with the module-level helpers
`edge`, `edgeIter`, `EdgeDict` and the nested closures `add_vtx`,
`internalize_vtx`, `add_tri`).

Modelling conventions:

* Machine integers are `ℕ`.  The numpy index buffer `tri_nparr` has dtype
  `uint16` or `uint32` (chosen from the pre-computed triangle count), and a
  numpy assignment of a larger integer into such an array silently reduces
  it modulo `2^16` resp. `2^32`; `add_tri` therefore stores each component
  `% M` where `M` is the selected modulus.
* Vertex coordinates are single-precision floats in the source.  No claim
  treated here depends on float arithmetic on coordinates, so coordinates
  are carried as exact rationals (`ℚ`); the interior flag lives in column 6
  of the same float row and only ever holds 0 or 1, both exactly
  representable, so it is a `ℚ` as well.
* The genuinely numeric geometry (SVD projection, `earcut` triangulation,
  normal computation) is external-collaborator code (spec section 4.3
  treats the triangulator as a black box; numpy/earcut are third-party
  packages, not this repository).  The per-polygon results are therefore
  parameters: `T poly` is the flat list of local triangle indices returned
  by `earcut.earcut` for the polygon, and `N poly` is the value of
  `normcheck = np.dot(tri0_norm, poly_normal)`.  Everything downstream of
  those two values (edge classification, winding flip, internalization,
  buffer writes) is translated directly from the source.
* Fallible numpy operations (out-of-range row writes and reads, which
  raise `IndexError`, the `assert` on the boundary-edge count, and the
  `RuntimeError` a generator raises when `next` underflows on an empty
  face) are modelled with `Except String`.
-/

namespace Athena

/-- Module-level global names that `plymesh.py` defines (imports and
`def`/`class` statements).  Used to model Python name resolution for the
bare `_key(a,b)` calls inside `EdgeDict`: a method body resolves a bare
name against the module globals, not against the enclosing class scope. -/
def moduleGlobals : List String :=
  ["Path", "struct", "itertools", "QByteArray", "Qt", "Qt3DCore",
   "Qt3DRender", "PlyData", "PlyElement", "np", "geom", "earcut",
   "_basetypes", "_basetype_data", "_basetype_widths",
   "_basetype_struct_codes", "_basetype_numpy_codes",
   "tri_norm", "EdgeDict", "edge", "edgeIter", "PlyMesh", "WireOutline"]

/-- The dictionary wrapped by the (unused) `EdgeDict` class: insertion
order of canonical-edge keys to stored indices. -/
structure EdgeDictSt where
  edges : List ((ℕ × ℕ) × ℕ)
deriving DecidableEq

/-- Translation of `EdgeDict.addEdge`.  The body evaluates `_key(a,b)`
where `_key` is a bare (module-global) name; `_key` is only defined as a
class attribute, so the call raises `NameError` before anything is
stored.  The `then` branch is the behaviour the class evidently intends
(store under the canonical `(min,max)` key) and is unreachable. -/
def EdgeDict.addEdge (d : EdgeDictSt) (a b idx : ℕ) : Except String EdgeDictSt :=
  if moduleGlobals.contains "_key" then
    .ok { edges := d.edges ++ [((min a b, max a b), idx)] }
  else
    .error "NameError: name _key is not defined"

/-- Translation of `EdgeDict.hasEdge`; raises `NameError` exactly like
`addEdge` because its body also evaluates the bare name `_key`. -/
def EdgeDict.hasEdge (d : EdgeDictSt) (a b : ℕ) : Except String Bool :=
  if moduleGlobals.contains "_key" then
    .ok (d.edges.lookup (min a b, max a b) |>.isSome)
  else
    .error "NameError: name _key is not defined"

/-- Translation of `EdgeDict.getEdge`; same `NameError`, and a missing
key in the intended branch would be a `KeyError`. -/
def EdgeDict.getEdge (d : EdgeDictSt) (a b : ℕ) : Except String ℕ :=
  if moduleGlobals.contains "_key" then
    match d.edges.lookup (min a b, max a b) with
    | some i => .ok i
    | none => .error "KeyError"
  else
    .error "NameError: name _key is not defined"

/-- Translation of the module-level `edge(a, b)`: the canonical
(undirected) form of a vertex-index pair. -/
def edge (a b : ℕ) : ℕ × ℕ := (min a b, max a b)

/-- Tail of the `edgeIter` generator: having seen first vertex `i0` and
most recent vertex `iLast`, yield one canonical edge per remaining vertex
and close the loop with `edge iLast i0`. -/
def edgeIterAux (i0 : ℕ) : ℕ → List ℕ → List (ℕ × ℕ)
  | iLast, [] => [edge iLast i0]
  | iLast, i :: rest => edge iLast i :: edgeIterAux i0 i rest

/-- Translation of the `edgeIter(poly)` generator: canonical consecutive
edges of the face, wraparound included.  On an empty face the Python
generator raises (its initial `next` underflows); the empty case here is
only reached behind the `isEmpty` guard in `processNgon`, which reports
that error. -/
def edgeIter : List ℕ → List (ℕ × ℕ)
  | [] => []
  | i0 :: rest => edgeIterAux i0 i0 rest

/-- One row of `vertex_nparr`: columns 0-2 are x,y,z, columns 3-5 stay
zero and are omitted, column 6 is the interior flag. -/
structure Row where
  x : ℚ
  y : ℚ
  z : ℚ
  interior : ℚ
deriving DecidableEq

/-- The all-zero row `np.zeros` pre-fills the vertex array with. -/
def zeroRow : Row := ⟨0, 0, 0, 0⟩

/-- A row of the triangle index buffer. -/
abbrev Triple : Type := ℕ × ℕ × ℕ

/-- The mutable state of `PlyMesh.__init__`'s conversion loop: the
duplicated vertex rows written past the original block (`vtx_idx` is
`nverts + dup.length`), the triangle rows written so far (`tri_idx` is
`tris.length`), and the `internal_vertices` dict in insertion order.
Note the dict is created once, before the loop over faces. -/
structure MeshState where
  dup : List Row
  tris : List Triple
  internal : List (ℕ × ℕ)
deriving DecidableEq

/-- The per-conversion constants: original vertex count, original vertex
coordinates, the index-buffer modulus `M` (from the chosen numpy dtype)
and the pre-computed triangle bound `totT = total_tris` (the allocated
row count of `tri_nparr`).  The vertex array is allocated with
`2 * nverts` rows. -/
structure Ctx where
  nverts : ℕ
  orig : ℕ → ℚ × ℚ × ℚ
  M : ℕ
  totT : ℕ

/-- Reading row `v` of `vertex_nparr`: an original row (interior 0), a
duplicated row, or a still-zero row of the pre-allocated tail. -/
def rowOf (ctx : Ctx) (s : MeshState) (v : ℕ) : Row :=
  if v < ctx.nverts then
    ⟨(ctx.orig v).1, (ctx.orig v).2.1, (ctx.orig v).2.2, 0⟩
  else
    match s.dup[v - ctx.nverts]? with
    | some r => r
    | none => zeroRow

/-- Translation of the closure `add_vtx(v, interior=1)`: write row data
at the cursor, overwrite column 6 with the interior flag, advance the
cursor, return the written index.  Writing past the allocated
`2 * nverts` rows raises `IndexError` in numpy. -/
def add_vtx (ctx : Ctx) (s : MeshState) (r : Row) (interiorFlag : ℚ) :
    Except String (ℕ × MeshState) :=
  if ctx.nverts + s.dup.length < 2 * ctx.nverts then
    .ok (ctx.nverts + s.dup.length,
         { s with dup := s.dup ++ [{ r with interior := interiorFlag }] })
  else
    .error "IndexError"

/-- Translation of the closure `internalize_vtx(v)`: look `v` up in the
shared `internal_vertices` dict; on a miss, read row `v` (an `IndexError`
if `v` is outside the allocated array), duplicate it via `add_vtx` with
the default `interior=1`, and record the new index under `v`. -/
def internalize_vtx (ctx : Ctx) (s : MeshState) (v : ℕ) :
    Except String (ℕ × MeshState) :=
  match s.internal.lookup v with
  | some i => .ok (i, s)
  | none =>
    if v < 2 * ctx.nverts then
      match add_vtx ctx s (rowOf ctx s v) 1 with
      | .ok (i, s2) => .ok (i, { s2 with internal := s2.internal ++ [(v, i)] })
      | .error e => .error e
    else
      .error "IndexError"

/-- Translation of the closure `add_tri(t)`: write the triple at the
triangle cursor (numpy reduces each component modulo the index dtype) and
advance; writing past the allocated `totT` rows raises `IndexError`. -/
def add_tri (ctx : Ctx) (s : MeshState) (t : Triple) : Except String MeshState :=
  if s.tris.length < ctx.totT then
    .ok { s with tris := s.tris ++ [(t.1 % ctx.M, t.2.1 % ctx.M, t.2.2 % ctx.M)] }
  else
    .error "IndexError"

/-- The conditional internalization pattern of the loop body:
`if cond: idx = internalize_vtx(idx)`. -/
def maybeInternalize (ctx : Ctx) (s : MeshState) (cond : Bool) (v : ℕ) :
    Except String (ℕ × MeshState) :=
  if cond then internalize_vtx ctx s v else .ok (v, s)

/-- Swap of the second and third index of a triangle
(`idx_b, idx_c = idx_c, idx_b`). -/
def swap23 (t : Triple) : Triple := (t.1, t.2.2, t.2.1)

/-- Lines 172-181 of the loop body, after index extraction: classify each
of the triangle's three edges `(ia,ib)`, `(ib,ic)`, `(ic,ia)` against the
polygon's boundary-edge set, replace the leading endpoint of each
non-boundary edge by its internalized index, and append the triangle. -/
def internalizeChain (ctx : Ctx) (ext : Finset (ℕ × ℕ)) (s : MeshState)
    (ia ib ic : ℕ) : Except String MeshState :=
  match maybeInternalize ctx s (decide (edge ia ib ∉ ext)) ia with
  | .error e => .error e
  | .ok (fA, s1) =>
    match maybeInternalize ctx s1 (decide (edge ib ic ∉ ext)) ib with
    | .error e => .error e
    | .ok (fB, s2) =>
      match maybeInternalize ctx s2 (decide (edge ic ia ∉ ext)) ic with
      | .error e => .error e
      | .ok (fC, s3) => add_tri ctx s3 (fA, fB, fC)

/-- Translation of one iteration of `for a,b,c in geom.grouper(new_tris,3)`:
look the three local indices up in the polygon (numpy raises `IndexError`
when a local index is out of range), swap the second and third values when
`flip` is set (`idx_b, idx_c = idx_c, idx_b`), then run the edge
classification and append (`internalizeChain`). -/
def processTriple (ctx : Ctx) (poly : List ℕ) (ext : Finset (ℕ × ℕ))
    (flip : Bool) (s : MeshState) (t : Triple) : Except String MeshState :=
  if t.1 < poly.length ∧ t.2.1 < poly.length ∧ t.2.2 < poly.length then
    internalizeChain ctx ext s (poly.getD t.1 0)
      (if flip then poly.getD t.2.2 0 else poly.getD t.2.1 0)
      (if flip then poly.getD t.2.1 0 else poly.getD t.2.2 0)
  else
    .error "IndexError"

/-- The loop over the grouped earcut output triples. -/
def processTriples (ctx : Ctx) (poly : List ℕ) (ext : Finset (ℕ × ℕ))
    (flip : Bool) : List Triple → MeshState → Except String MeshState
  | [], s => .ok s
  | t :: ts, s =>
    match processTriple ctx poly ext flip s t with
    | .error e => .error e
    | .ok s2 => processTriples ctx poly ext flip ts s2

/-- Modelled from the spec: grouping of the flat earcut output into index
triples.  The helper `geom.grouper` lives in `athena/geom.py`, which is
not among the provided sources; spec section 4.3 states the triangulator
output length is a multiple of 3, each consecutive triple naming one
triangle, so grouping complete triples (any trailing remainder shorter
than 3 is never produced under that contract) is the faithful reading. -/
def triples : List ℕ → List Triple
  | a :: b :: c :: rest => (a, b, c) :: triples rest
  | _ => []

/-- Translation of `np.isclose(normcheck, 1.0, rtol=1e-1)` with numpy's
default `atol=1e-8`: `|a - b| <= atol + rtol * |b|`. -/
def isclose_one (q : ℚ) : Bool :=
  decide (|q - 1| ≤ 1 / 100000000 + (1 / 10) * 1)

/-- The per-polygon winding decision: `flip = False`, set to `True` when
the normal check is not close to 1. -/
def flipDecision (q : ℚ) : Bool := ! isclose_one q

/-- Translation of the n-gon branch of the face loop.  In source order:
build the boundary-edge set (`RuntimeError` on an empty face, from the
generator), assert its size equals the vertex count, gather the polygon
rows (`IndexError` when a face index is outside the allocated vertex
array), compute the reference normal from the first three rows
(`IndexError` when the face has fewer than three vertices), run the
(parametrized) projection + earcut `T`, read the first output triangle's
rows (`IndexError` when earcut returns fewer than three indices or an
out-of-range local index), make the single flip decision from the
(parametrized) normal dot product `N poly`, then run the triangle loop. -/
def processNgon (ctx : Ctx) (T : List ℕ → List ℕ) (N : List ℕ → ℚ)
    (s : MeshState) (poly : List ℕ) : Except String MeshState :=
  if poly.isEmpty then .error "RuntimeError"
  else if ((edgeIter poly).toFinset).card ≠ poly.length then .error "AssertionError"
  else if ¬ (∀ v ∈ poly, v < 2 * ctx.nverts) then .error "IndexError"
  else if poly.length < 3 then .error "IndexError"
  else if (T poly).length < 3 then .error "IndexError"
  else if ¬ (∀ l ∈ (T poly).take 3, l < poly.length) then .error "IndexError"
  else
    processTriples ctx poly ((edgeIter poly).toFinset) (flipDecision (N poly))
      (triples (T poly)) s

/-- Comparison definition following the claim's phrasing of the winding
correction: decide the flip once per polygon and, when set, swap the
second and third local index of every output triple up front, then run
the triangle loop with no per-triangle flip logic at all. -/
def applySwap (b : Bool) (ts : List Triple) : List Triple :=
  if b then ts.map swap23 else ts

/-- Comparison definition following the claim: `processNgon` with the
flip applied as a single whole-list pre-pass instead of inside the loop
body. -/
def processNgonPreSwapped (ctx : Ctx) (T : List ℕ → List ℕ) (N : List ℕ → ℚ)
    (s : MeshState) (poly : List ℕ) : Except String MeshState :=
  if poly.isEmpty then .error "RuntimeError"
  else if ((edgeIter poly).toFinset).card ≠ poly.length then .error "AssertionError"
  else if ¬ (∀ v ∈ poly, v < 2 * ctx.nverts) then .error "IndexError"
  else if poly.length < 3 then .error "IndexError"
  else if (T poly).length < 3 then .error "IndexError"
  else if ¬ (∀ l ∈ (T poly).take 3, l < poly.length) then .error "IndexError"
  else
    processTriples ctx poly ((edgeIter poly).toFinset) false
      (applySwap (flipDecision (N poly)) (triples (T poly))) s

/-- Translation of the body of `for poly in faces`: a 3-vertex face is
appended to the index buffer as-is, any other face takes the n-gon path. -/
def processFace (ctx : Ctx) (T : List ℕ → List ℕ) (N : List ℕ → ℚ)
    (s : MeshState) (poly : List ℕ) : Except String MeshState :=
  if poly.length = 3 then
    add_tri ctx s (poly.getD 0 0, poly.getD 1 0, poly.getD 2 0)
  else
    processNgon ctx T N s poly

/-- The loop over all faces. -/
def processFaces (ctx : Ctx) (T : List ℕ → List ℕ) (N : List ℕ → ℚ) :
    List (List ℕ) → MeshState → Except String MeshState
  | [], s => .ok s
  | f :: fs, s =>
    match processFace ctx T N s f with
    | .error e => .error e
    | .ok s2 => processFaces ctx T N fs s2

/-- Translation of `large_faces = [x for x in faces if len(x) > 3]`
(count only). -/
def num_large_faces (faces : List (List ℕ)) : ℕ :=
  (faces.filter (fun x => 3 < x.length)).length

/-- Translation of `num_tris = len(faces) - num_large_faces`. -/
def num_tris (faces : List (List ℕ)) : ℕ :=
  faces.length - num_large_faces faces

/-- Translation of `num_interior_tris = sum(len(x) for x in large_faces)`. -/
def num_interior_tris (faces : List (List ℕ)) : ℕ :=
  ((faces.filter (fun x => 3 < x.length)).map List.length).sum

/-- Translation of `total_tris = num_tris + num_interior_tris`. -/
def total_tris (faces : List (List ℕ)) : ℕ :=
  num_tris faces + num_interior_tris faces

/-- Bit width of the index dtype chosen at lines 90-93: `UnsignedShort`
below 30000 pre-computed triangles, `UnsignedInt` otherwise. -/
def index_bits (t : ℕ) : ℕ := if t < 30000 then 16 else 32

/-- The wrap-around modulus of the chosen index dtype. -/
def indexModulus (t : ℕ) : ℕ := 2 ^ index_bits t

/-- The per-conversion constants as `PlyMesh.__init__` computes them
before the face loop runs. -/
def mkCtx (nverts : ℕ) (orig : ℕ → ℚ × ℚ × ℚ) (faces : List (List ℕ)) : Ctx :=
  { nverts := nverts
    orig := orig
    M := indexModulus (total_tris faces)
    totT := total_tris faces }

/-- The whole conversion loop of `PlyMesh.__init__`: allocate (implicitly,
via the bounds in `Ctx`), then fold the face loop from the empty state
(`vtx_idx = nverts`, `tri_idx = 0`, empty `internal_vertices`). -/
def processMesh (nverts : ℕ) (orig : ℕ → ℚ × ℚ × ℚ)
    (T : List ℕ → List ℕ) (N : List ℕ → ℚ) (faces : List (List ℕ)) :
    Except String MeshState :=
  processFaces (mkCtx nverts orig faces) T N faces
    { dup := [], tris := [], internal := [] }

/-- The vertex buffer as handed to Qt3D (`vertex_nparr.tobytes()`):
all `2 * nverts` allocated rows, filled or still zero. -/
def vertexBuffer (ctx : Ctx) (s : MeshState) : List Row :=
  (List.range (2 * ctx.nverts)).map (rowOf ctx s)

/-- The index buffer as handed to Qt3D (`tri_nparr.tobytes()`): the
emitted triangles followed by the still-zero allocated rows. -/
def indexBuffer (ctx : Ctx) (s : MeshState) : List Triple :=
  s.tris ++ List.replicate (ctx.totT - s.tris.length) (0, 0, 0)

/-- Translation of `positionAttr.setCount(len(vertex_nparr))`. -/
def positionAttrCount (ctx : Ctx) (s : MeshState) : ℕ :=
  (vertexBuffer ctx s).length

/-- Translation of `indexAttr.setCount(3*total_tris)`. -/
def indexAttrCount (ctx : Ctx) : ℕ := 3 * ctx.totT

/-- Projection helper: the emitted triangles of a conversion result
(empty on a failed conversion). -/
def trisOf (r : Except String MeshState) : List Triple :=
  match r with
  | .ok m => m.tris
  | .error _ => []

/-- Projection helper: the final `internal_vertices` dict of a conversion
result (empty on a failed conversion). -/
def internalOf (r : Except String MeshState) : List (ℕ × ℕ) :=
  match r with
  | .ok m => m.internal
  | .error _ => []

/-- Projection helper: the duplicated-row count of a conversion result. -/
def dupLenOf (r : Except String MeshState) : ℕ :=
  match r with
  | .ok m => m.dup.length
  | .error _ => 0

/-- Whether a conversion result is a raised error. -/
def isErr (r : Except String MeshState) : Bool :=
  match r with
  | .error _ => true
  | .ok _ => false

/-- Invariant: the values of the `internal_vertices` dict, in insertion
order, are exactly the indices of the duplicated rows
`nverts, nverts+1, ..., nverts + dup.length - 1` (every duplicated row is
created by `internalize_vtx`, since `add_vtx` has no other caller). -/
def mapSnd (ctx : Ctx) (s : MeshState) : Prop :=
  s.internal.map Prod.snd = List.range' ctx.nverts s.dup.length

/-- All three components of a stored triple are below the index modulus. -/
def TriLt (ctx : Ctx) (t : Triple) : Prop :=
  t.1 < ctx.M ∧ t.2.1 < ctx.M ∧ t.2.2 < ctx.M

/-- How one conversion step (or any sequence of steps) relates the state
before to the state after: the three pools only grow at the end, the
fill cursors respect the allocated bounds, the dict-to-pool invariant is
preserved, and stored triples stay reduced below the index modulus. -/
def Extends (ctx : Ctx) (s s2 : MeshState) : Prop :=
  (∃ l, s2.internal = s.internal ++ l) ∧
  (∃ l, s2.dup = s.dup ++ l) ∧
  (∃ l, s2.tris = s.tris ++ l) ∧
  (s.dup.length ≤ ctx.nverts → s2.dup.length ≤ ctx.nverts) ∧
  (s.tris.length ≤ ctx.totT → s2.tris.length ≤ ctx.totT) ∧
  (mapSnd ctx s → mapSnd ctx s2) ∧
  (0 < ctx.M → (∀ t ∈ s.tris, TriLt ctx t) → ∀ t ∈ s2.tris, TriLt ctx t)

/-- Invariant for the output-triangle claims: every stored triple has
pairwise distinct components, each a valid index of the filled part of
the vertex pool. -/
def TrisGood (ctx : Ctx) (s : MeshState) : Prop :=
  ∀ t ∈ s.tris,
    (t.1 ≠ t.2.1 ∧ t.1 ≠ t.2.2 ∧ t.2.1 ≠ t.2.2) ∧
    t.1 < ctx.nverts + s.dup.length ∧
    t.2.1 < ctx.nverts + s.dup.length ∧
    t.2.2 < ctx.nverts + s.dup.length

/-- A concrete triangulator used for closed evaluations: the standard
fan triangulation of a quadrilateral, as earcut produces for a convex
quad (two triangles on the 0-2 diagonal). -/
def fanQuad : List ℕ → List ℕ :=
  fun poly => if poly.length = 4 then [0, 1, 2, 0, 2, 3] else []

/-- A concrete normal-check outcome used for closed evaluations: the
first emitted triangle's normal agrees exactly with the reference
normal, so no winding flip happens. -/
def constN1 : List ℕ → ℚ := fun _ => 1

/-- Concrete original-vertex coordinates for closed evaluations (the
claims under test are combinatorial, so the origin suffices). -/
def origZero : ℕ → ℚ × ℚ × ℚ := fun _ => (0, 0, 0)

/-! Helper lemmas about dictionary lookup (`List.lookup` on insertion
order models the Python dict: keys are inserted at most once). -/

theorem lookup_append_some {l1 l2 : List (ℕ × ℕ)} {v i : ℕ}
    (h : l1.lookup v = some i) : (l1 ++ l2).lookup v = some i := by
  induction l1 with
  | nil => simp [List.lookup] at h
  | cons p l ih =>
    obtain ⟨k, j⟩ := p
    by_cases hv : v = k
    · subst hv
      simp [List.lookup] at h ⊢
      exact h
    · have hb : (v == k) = false := beq_false_of_ne hv
      simp [List.lookup, hb] at h ⊢
      exact ih h

theorem lookup_append_self {l : List (ℕ × ℕ)} {v : ℕ} (h : l.lookup v = none)
    (i : ℕ) : (l ++ [(v, i)]).lookup v = some i := by
  induction l with
  | nil => simp [List.lookup]
  | cons p l ih =>
    obtain ⟨k, j⟩ := p
    by_cases hv : v = k
    · subst hv
      simp [List.lookup] at h
    · have hb : (v == k) = false := beq_false_of_ne hv
      simp only [List.cons_append, List.lookup_cons, hb] at h ⊢
      exact ih h

theorem lookup_mem_snd {l : List (ℕ × ℕ)} {v i : ℕ}
    (h : l.lookup v = some i) : i ∈ l.map Prod.snd := by
  induction l with
  | nil => simp [List.lookup] at h
  | cons p l ih =>
    obtain ⟨k, j⟩ := p
    by_cases hv : v = k
    · subst hv
      simp [List.lookup] at h
      simp [h]
    · have hb : (v == k) = false := beq_false_of_ne hv
      simp [List.lookup, hb] at h
      simp [ih h]

theorem lookup_ne_of_nodup {l : List (ℕ × ℕ)} (hn : (l.map Prod.snd).Nodup)
    {v w i j : ℕ} (hvw : v ≠ w) (hv : l.lookup v = some i)
    (hw : l.lookup w = some j) : i ≠ j := by
  induction l with
  | nil => simp [List.lookup] at hv
  | cons p l ih =>
    obtain ⟨k, x⟩ := p
    simp only [List.map_cons, List.nodup_cons] at hn
    by_cases hv1 : v = k
    · subst hv1
      have hb : (w == v) = false := beq_false_of_ne (Ne.symm hvw)
      simp [List.lookup] at hv
      simp [List.lookup, hb] at hw
      have hmem : j ∈ l.map Prod.snd := lookup_mem_snd hw
      intro hij
      exact hn.1 (by rw [hv, hij]; exact hmem)
    · have hb : (v == k) = false := beq_false_of_ne hv1
      simp [List.lookup, hb] at hv
      by_cases hw1 : w = k
      · subst hw1
        simp [List.lookup] at hw
        have hmem : i ∈ l.map Prod.snd := lookup_mem_snd hv
        intro hij
        exact hn.1 (by rw [hw, ← hij]; exact hmem)
      · have hb2 : (w == k) = false := beq_false_of_ne hw1
        simp [List.lookup, hb2] at hw
        exact ih hn.2 hv hw

/-! Specifications of the three state-mutating closures. -/

theorem add_vtx_ok {ctx : Ctx} {s : MeshState} {r : Row} {fl : ℚ} {i : ℕ}
    {s2 : MeshState} (h : add_vtx ctx s r fl = .ok (i, s2)) :
    i = ctx.nverts + s.dup.length ∧
    s2.dup = s.dup ++ [{ r with interior := fl }] ∧
    s2.tris = s.tris ∧ s2.internal = s.internal ∧
    ctx.nverts + s.dup.length < 2 * ctx.nverts := by
  unfold add_vtx at h
  split at h
  · simp only [Except.ok.injEq, Prod.mk.injEq] at h
    obtain ⟨h1, h2⟩ := h
    subst h2
    exact ⟨h1.symm, rfl, rfl, rfl, by assumption⟩
  · cases h

theorem internalize_ok {ctx : Ctx} {s : MeshState} {v i : ℕ} {s2 : MeshState}
    (h : internalize_vtx ctx s v = .ok (i, s2)) :
    s2.tris = s.tris ∧ s2.internal.lookup v = some i ∧
    ((s.internal.lookup v = some i ∧ s2 = s) ∨
     (s.internal.lookup v = none ∧ i = ctx.nverts + s.dup.length ∧
      s2.dup = s.dup ++ [{ rowOf ctx s v with interior := 1 }] ∧
      s2.internal = s.internal ++ [(v, i)] ∧
      ctx.nverts + s.dup.length < 2 * ctx.nverts)) := by
  rcases hl : s.internal.lookup v with _ | j
  · simp only [internalize_vtx, hl] at h
    by_cases hv : v < 2 * ctx.nverts
    · rw [if_pos hv] at h
      rcases ha : add_vtx ctx s (rowOf ctx s v) 1 with e | ⟨j, s1⟩
      · rw [ha] at h
        exact Except.noConfusion h
      · simp only [ha] at h
        simp only [Except.ok.injEq, Prod.mk.injEq] at h
        obtain ⟨h1, h2⟩ := h
        obtain ⟨hj, hdup, htris, hint, hlt⟩ := add_vtx_ok ha
        subst h1
        subst h2
        refine ⟨by simp [htris], ?_,
          Or.inr ⟨rfl, hj, by simp [hdup], by simp [hint], hlt⟩⟩
        show (s1.internal ++ [(v, j)]).lookup v = some j
        rw [hint]
        exact lookup_append_self hl _
    · rw [if_neg hv] at h
      cases h
  · simp only [internalize_vtx, hl] at h
    simp only [Except.ok.injEq, Prod.mk.injEq] at h
    obtain ⟨h1, h2⟩ := h
    subst h1
    subst h2
    exact ⟨rfl, hl, Or.inl ⟨rfl, rfl⟩⟩

theorem internalize_extends {ctx : Ctx} {s : MeshState} {v i : ℕ}
    {s2 : MeshState} (h : internalize_vtx ctx s v = .ok (i, s2)) :
    (∃ l, s2.internal = s.internal ++ l) ∧ (∃ l, s2.dup = s.dup ++ l) ∧
    s2.tris = s.tris ∧ s2.dup.length ≤ s.dup.length + 1 ∧
    (s.dup.length ≤ ctx.nverts → s2.dup.length ≤ ctx.nverts) := by
  obtain ⟨ht, hlk, hcase⟩ := internalize_ok h
  rcases hcase with ⟨_, rfl⟩ | ⟨_, hi, hdup, hint, hlt⟩
  · exact ⟨⟨[], by simp⟩, ⟨[], by simp⟩, rfl, by omega, fun hd => hd⟩
  · refine ⟨⟨_, hint⟩, ⟨_, hdup⟩, ht, ?_, fun _ => ?_⟩
    · simp [hdup]
    · simp only [hdup, List.length_append, List.length_cons, List.length_nil]
      omega

theorem internalize_mapSnd {ctx : Ctx} {s : MeshState} {v i : ℕ}
    {s2 : MeshState} (hm : mapSnd ctx s)
    (h : internalize_vtx ctx s v = .ok (i, s2)) : mapSnd ctx s2 := by
  obtain ⟨_, _, hcase⟩ := internalize_ok h
  rcases hcase with ⟨_, rfl⟩ | ⟨_, hi, hdup, hint, _⟩
  · exact hm
  · unfold mapSnd at hm ⊢
    rw [hint, hdup]
    simp [List.map_append, hm, hi, List.range'_concat]

theorem internalize_bounds {ctx : Ctx} {s : MeshState} {v i : ℕ}
    {s2 : MeshState} (hm : mapSnd ctx s)
    (h : internalize_vtx ctx s v = .ok (i, s2)) :
    ctx.nverts ≤ i ∧ i < ctx.nverts + s2.dup.length := by
  obtain ⟨_, hlk, hcase⟩ := internalize_ok h
  rcases hcase with ⟨hv, rfl⟩ | ⟨_, hi, hdup, _, _⟩
  · have hmem := lookup_mem_snd hv
    unfold mapSnd at hm
    rw [hm] at hmem
    have := List.mem_range'_1.mp hmem
    omega
  · subst hi
    simp only [hdup, List.length_append, List.length_cons, List.length_nil]
    omega

theorem add_tri_ok {ctx : Ctx} {s : MeshState} {t : Triple} {s2 : MeshState}
    (h : add_tri ctx s t = .ok s2) :
    s2.tris = s.tris ++ [(t.1 % ctx.M, t.2.1 % ctx.M, t.2.2 % ctx.M)] ∧
    s2.dup = s.dup ∧ s2.internal = s.internal ∧ s.tris.length < ctx.totT := by
  unfold add_tri at h
  split at h
  · simp only [Except.ok.injEq] at h
    subst h
    exact ⟨rfl, rfl, rfl, by assumption⟩
  · cases h

theorem maybeInternalize_spec {ctx : Ctx} {s : MeshState} {b : Bool} {v f : ℕ}
    {s2 : MeshState} (hm : mapSnd ctx s)
    (h : maybeInternalize ctx s b v = .ok (f, s2)) :
    s2.tris = s.tris ∧
    (∃ l, s2.internal = s.internal ++ l) ∧
    (∃ l, s2.dup = s.dup ++ l) ∧
    mapSnd ctx s2 ∧
    (s.dup.length ≤ ctx.nverts → s2.dup.length ≤ ctx.nverts) ∧
    ((f = v ∧ s2 = s) ∨
     (s2.internal.lookup v = some f ∧ ctx.nverts ≤ f ∧
      f < ctx.nverts + s2.dup.length)) := by
  unfold maybeInternalize at h
  split at h
  · obtain ⟨ht, hlk, _⟩ := internalize_ok h
    obtain ⟨hi1, hi2, _, _, hb⟩ := internalize_extends h
    obtain ⟨hlo, hhi⟩ := internalize_bounds hm h
    exact ⟨ht, hi1, hi2, internalize_mapSnd hm h, hb, Or.inr ⟨hlk, hlo, hhi⟩⟩
  · simp only [Except.ok.injEq, Prod.mk.injEq] at h
    obtain ⟨h1, h2⟩ := h
    subst h1
    subst h2
    exact ⟨rfl, ⟨[], by simp⟩, ⟨[], by simp⟩, hm, fun hd => hd, Or.inl ⟨rfl, rfl⟩⟩

end Athena

namespace Athena

/-! The `Extends` relation: reflexivity, transitivity, and preservation
by every step of the conversion loop. -/

theorem extends_refl (ctx : Ctx) (s : MeshState) : Extends ctx s s :=
  ⟨⟨[], by simp⟩, ⟨[], by simp⟩, ⟨[], by simp⟩, id, id, id, fun _ => id⟩

theorem extends_trans {ctx : Ctx} {s1 s2 s3 : MeshState}
    (h1 : Extends ctx s1 s2) (h2 : Extends ctx s2 s3) : Extends ctx s1 s3 := by
  obtain ⟨⟨a1, ha1⟩, ⟨b1, hb1⟩, ⟨c1, hc1⟩, d1, e1, f1, g1⟩ := h1
  obtain ⟨⟨a2, ha2⟩, ⟨b2, hb2⟩, ⟨c2, hc2⟩, d2, e2, f2, g2⟩ := h2
  exact ⟨⟨a1 ++ a2, by rw [ha2, ha1, List.append_assoc]⟩,
         ⟨b1 ++ b2, by rw [hb2, hb1, List.append_assoc]⟩,
         ⟨c1 ++ c2, by rw [hc2, hc1, List.append_assoc]⟩,
         fun hd => d2 (d1 hd), fun ht => e2 (e1 ht), fun hm => f2 (f1 hm),
         fun hM hall => g2 hM (g1 hM hall)⟩

theorem maybeInternalize_extends {ctx : Ctx} {s : MeshState} {b : Bool}
    {v f : ℕ} {s2 : MeshState} (h : maybeInternalize ctx s b v = .ok (f, s2)) :
    Extends ctx s s2 := by
  unfold maybeInternalize at h
  split at h
  · obtain ⟨⟨l1, h1⟩, ⟨l2, h2⟩, ht, _, hb⟩ := internalize_extends h
    refine ⟨⟨l1, h1⟩, ⟨l2, h2⟩, ⟨[], by simp [ht]⟩, hb, ?_,
      fun hm => internalize_mapSnd hm h, ?_⟩
    · intro h3
      simpa [ht] using h3
    · intro _ hall u hu
      rw [ht] at hu
      exact hall u hu
  · simp only [Except.ok.injEq, Prod.mk.injEq] at h
    obtain ⟨h1, h2⟩ := h
    subst h1
    subst h2
    exact extends_refl ctx s

theorem add_tri_extends {ctx : Ctx} {s : MeshState} {t : Triple}
    {s2 : MeshState} (h : add_tri ctx s t = .ok s2) : Extends ctx s s2 := by
  obtain ⟨htris, hdup, hint, hlt⟩ := add_tri_ok h
  refine ⟨⟨[], by simp [hint]⟩, ⟨[], by simp [hdup]⟩, ⟨_, htris⟩,
    by simp [hdup], ?_, ?_, ?_⟩
  · intro _
    rw [htris]
    simp only [List.length_append, List.length_cons, List.length_nil]
    omega
  · intro hm
    unfold mapSnd at hm ⊢
    rw [hint, hdup]
    exact hm
  · intro hM hall u hu
    rw [htris] at hu
    rcases List.mem_append.mp hu with h1 | h1
    · exact hall u h1
    · simp only [List.mem_singleton] at h1
      subst h1
      exact ⟨Nat.mod_lt _ hM, Nat.mod_lt _ hM, Nat.mod_lt _ hM⟩

theorem internalizeChain_extends {ctx : Ctx} {ext : Finset (ℕ × ℕ)}
    {s : MeshState} {ia ib ic : ℕ} {s2 : MeshState}
    (h : internalizeChain ctx ext s ia ib ic = .ok s2) : Extends ctx s s2 := by
  unfold internalizeChain at h
  split at h
  · exact Except.noConfusion h
  · rename_i fA s1 heqA
    split at h
    · exact Except.noConfusion h
    · rename_i fB sB heqB
      split at h
      · exact Except.noConfusion h
      · rename_i fC sC heqC
        exact extends_trans (maybeInternalize_extends heqA)
          (extends_trans (maybeInternalize_extends heqB)
            (extends_trans (maybeInternalize_extends heqC) (add_tri_extends h)))

theorem processTriple_extends {ctx : Ctx} {poly : List ℕ} {ext : Finset (ℕ × ℕ)}
    {flip : Bool} {s : MeshState} {t : Triple} {s2 : MeshState}
    (h : processTriple ctx poly ext flip s t = .ok s2) : Extends ctx s s2 := by
  unfold processTriple at h
  split at h
  · exact internalizeChain_extends h
  · exact Except.noConfusion h

theorem processTriples_extends {ctx : Ctx} {poly : List ℕ} {ext : Finset (ℕ × ℕ)}
    {flip : Bool} {ts : List Triple} {s s2 : MeshState}
    (h : processTriples ctx poly ext flip ts s = .ok s2) : Extends ctx s s2 := by
  induction ts generalizing s with
  | nil =>
    unfold processTriples at h
    simp only [Except.ok.injEq] at h
    subst h
    exact extends_refl ctx s
  | cons t ts ih =>
    unfold processTriples at h
    split at h
    · exact Except.noConfusion h
    · rename_i s1 heq
      exact extends_trans (processTriple_extends heq) (ih h)

theorem processNgon_extends {ctx : Ctx} {T : List ℕ → List ℕ} {N : List ℕ → ℚ}
    {s : MeshState} {poly : List ℕ} {s2 : MeshState}
    (h : processNgon ctx T N s poly = .ok s2) : Extends ctx s s2 := by
  unfold processNgon at h
  split at h
  · exact Except.noConfusion h
  · split at h
    · exact Except.noConfusion h
    · split at h
      · exact Except.noConfusion h
      · split at h
        · exact Except.noConfusion h
        · split at h
          · exact Except.noConfusion h
          · split at h
            · exact Except.noConfusion h
            · exact processTriples_extends h

theorem processFace_extends {ctx : Ctx} {T : List ℕ → List ℕ} {N : List ℕ → ℚ}
    {s : MeshState} {poly : List ℕ} {s2 : MeshState}
    (h : processFace ctx T N s poly = .ok s2) : Extends ctx s s2 := by
  unfold processFace at h
  split at h
  · exact add_tri_extends h
  · exact processNgon_extends h

theorem processFaces_extends {ctx : Ctx} {T : List ℕ → List ℕ} {N : List ℕ → ℚ}
    {fs : List (List ℕ)} {s s2 : MeshState}
    (h : processFaces ctx T N fs s = .ok s2) : Extends ctx s s2 := by
  induction fs generalizing s with
  | nil =>
    unfold processFaces at h
    simp only [Except.ok.injEq] at h
    subst h
    exact extends_refl ctx s
  | cons f fs ih =>
    unfold processFaces at h
    split at h
    · exact Except.noConfusion h
    · rename_i s1 heq
      exact extends_trans (processFace_extends heq) (ih h)

end Athena

namespace Athena

/-! Helper lemmas for the error-propagation and winding-flip claims. -/

theorem processFaces_err_of_bad {ctx : Ctx} {T : List ℕ → List ℕ}
    {N : List ℕ → ℚ} {fs : List (List ℕ)} {s : MeshState}
    (hbad : ∃ f ∈ fs, f.length ≠ 3 ∧ (edgeIter f).toFinset.card ≠ f.length) :
    isErr (processFaces ctx T N fs s) = true := by
  induction fs generalizing s with
  | nil => simp at hbad
  | cons f fs ih =>
    obtain ⟨g, hg, hlen, hcard⟩ := hbad
    rcases List.mem_cons.mp hg with rfl | hgtail
    · have hface : processFace ctx T N s g = .error "AssertionError" := by
        unfold processFace
        rw [if_neg hlen]
        unfold processNgon
        have hne : ¬ (g.isEmpty = true) := by
          cases g with
          | nil => simp [edgeIter] at hcard
          | cons a l => simp
        rw [if_neg hne, if_pos hcard]
      unfold processFaces
      rw [hface]
      rfl
    · unfold processFaces
      cases hp : processFace ctx T N s f with
      | error e => rfl
      | ok s1 => exact ih ⟨g, hgtail, hlen, hcard⟩

theorem processTriple_flip_swap (ctx : Ctx) (poly : List ℕ)
    (ext : Finset (ℕ × ℕ)) (s : MeshState) (t : Triple) :
    processTriple ctx poly ext true s t =
      processTriple ctx poly ext false s (swap23 t) := by
  unfold processTriple swap23
  rcases Decidable.em
      (t.1 < poly.length ∧ t.2.1 < poly.length ∧ t.2.2 < poly.length) with
    hall | hall
  · have h2 : (t.1, t.2.2, t.2.1).1 < poly.length ∧
        (t.1, t.2.2, t.2.1).2.1 < poly.length ∧
        (t.1, t.2.2, t.2.1).2.2 < poly.length :=
      ⟨hall.1, hall.2.2, hall.2.1⟩
    rw [if_pos hall, if_pos h2]
    rfl
  · have h2 : ¬ ((t.1, t.2.2, t.2.1).1 < poly.length ∧
        (t.1, t.2.2, t.2.1).2.1 < poly.length ∧
        (t.1, t.2.2, t.2.1).2.2 < poly.length) :=
      fun hc => hall ⟨hc.1, hc.2.2, hc.2.1⟩
    rw [if_neg hall, if_neg h2]

theorem processTriples_flip_swap (ctx : Ctx) (poly : List ℕ)
    (ext : Finset (ℕ × ℕ)) (flip : Bool) (ts : List Triple) (s : MeshState) :
    processTriples ctx poly ext flip ts s =
      processTriples ctx poly ext false (applySwap flip ts) s := by
  cases flip
  · simp [applySwap]
  · induction ts generalizing s with
    | nil => simp [applySwap, processTriples]
    | cons t ts ih =>
      have hsw : applySwap true (t :: ts) = swap23 t :: applySwap true ts := by
        simp [applySwap]
      rw [hsw]
      unfold processTriples
      rw [processTriple_flip_swap]
      cases hp : processTriple ctx poly ext false s (swap23 t) with
      | error e => rfl
      | ok s1 => exact ih s1

theorem processNgon_preSwapped_eq (ctx : Ctx) (T : List ℕ → List ℕ)
    (N : List ℕ → ℚ) (s : MeshState) (poly : List ℕ) :
    processNgon ctx T N s poly = processNgonPreSwapped ctx T N s poly := by
  unfold processNgon processNgonPreSwapped
  by_cases h1 : poly.isEmpty = true
  · rw [if_pos h1, if_pos h1]
  · rw [if_neg h1, if_neg h1]
    by_cases h2 : ((edgeIter poly).toFinset).card ≠ poly.length
    · rw [if_pos h2, if_pos h2]
    · rw [if_neg h2, if_neg h2]
      by_cases h3 : ¬ (∀ v ∈ poly, v < 2 * ctx.nverts)
      · rw [if_pos h3, if_pos h3]
      · rw [if_neg h3, if_neg h3]
        by_cases h4 : poly.length < 3
        · rw [if_pos h4, if_pos h4]
        · rw [if_neg h4, if_neg h4]
          by_cases h5 : (T poly).length < 3
          · rw [if_pos h5, if_pos h5]
          · rw [if_neg h5, if_neg h5]
            by_cases h6 : ¬ (∀ l ∈ (T poly).take 3, l < poly.length)
            · rw [if_pos h6, if_pos h6]
            · rw [if_neg h6, if_neg h6]
              exact processTriples_flip_swap ctx poly _ _ _ s

end Athena

namespace Athena

/-- Claim C3 (code_bug): the spec says the edge-set operations never fail
at runtime, but every `EdgeDict` method raises `NameError` on any input,
because the method bodies call `_key(a,b)` as a bare global name while
`_key` is only defined as a (mis-declared) classmethod attribute; shown
here by evaluating each method at the failing input `EdgeDict().hasEdge(0,1)`
(and the same for `addEdge`/`getEdge`).  The module-level `edge` helper,
which the mesh pipeline actually uses, does return `(min a b, max a b)`
for every input, as the spec states. -/
theorem c3_edgedict_nameerror :
    EdgeDict.hasEdge ⟨[]⟩ 0 1 = .error "NameError: name _key is not defined" ∧
    EdgeDict.addEdge ⟨[]⟩ 0 1 0 = .error "NameError: name _key is not defined" ∧
    EdgeDict.getEdge ⟨[]⟩ 0 1 = .error "NameError: name _key is not defined" ∧
    ∀ a b : ℕ, edge a b = (min a b, max a b) :=
  ⟨rfl, rfl, rfl, fun _ _ => rfl⟩

/-- Claim C1, amended: the `internal_vertices` map is created once per
conversion and is shared across all polygons — a binding made while
processing one face is still present (and is returned unchanged by
`internalize_vtx`) while processing every later face, so two n-gon faces
referencing the same original vertex on non-boundary edges receive the
SAME duplicated vertex-pool index, not different ones. -/
theorem c1_internalization_shared (ctx : Ctx) (T : List ℕ → List ℕ)
    (N : List ℕ → ℚ) :
    (∀ (s : MeshState) (v i : ℕ), s.internal.lookup v = some i →
      internalize_vtx ctx s v = .ok (i, s)) ∧
    (∀ (s : MeshState) (f : List ℕ) (s2 : MeshState),
      processFace ctx T N s f = .ok s2 →
      ∀ v i, s.internal.lookup v = some i → s2.internal.lookup v = some i) := by
  constructor
  · intro s v i hl
    unfold internalize_vtx
    rw [hl]
  · intro s f s2 h v i hl
    obtain ⟨⟨l, hli⟩, _⟩ := processFace_extends h
    rw [hli]
    exact lookup_append_some hl

/-- Witness for C1's amended theorem at concrete inputs: a state whose
dict already maps vertex 2 to pool slot 7 returns 7 again unchanged, and
processing a further (triangular) face preserves the binding. -/
theorem c1_internalization_shared_witness :
    internalize_vtx ⟨7, origZero, 65536, 8⟩ ⟨[⟨0,0,0,1⟩], [], [(2,7)]⟩ 2 =
      .ok (7, ⟨[⟨0,0,0,1⟩], [], [(2,7)]⟩) ∧
    (⟨[⟨0,0,0,1⟩], [(0,1,2)], [(2,7)]⟩ : MeshState).internal.lookup 2 = some 7 :=
  ⟨(c1_internalization_shared ⟨7, origZero, 65536, 8⟩ fanQuad constN1).1
      ⟨[⟨0,0,0,1⟩], [], [(2,7)]⟩ 2 7 rfl,
   (c1_internalization_shared ⟨7, origZero, 65536, 8⟩ fanQuad constN1).2
      ⟨[⟨0,0,0,1⟩], [], [(2,7)]⟩ [0,1,2] ⟨[⟨0,0,0,1⟩], [(0,1,2)], [(2,7)]⟩
      rfl 2 7 rfl⟩

/-- Counterexample to claim C1 as stated: two quads `[0,1,2,3]` and
`[2,4,5,6]` both reference original vertex 2 on a non-boundary (diagonal)
edge — conjuncts 2 and 3 check those diagonals are outside each quad's
boundary-edge set — yet the conversion gives vertex 2 the SAME duplicated
pool index 7 in both faces' output triangles (`(0,1,7)` from the first
quad and `(7,5,6)` from the second), and the final dict holds the single
shared binding `(2,7)`.  The claim demanded two different duplicated
indices from per-polygon maps. -/
theorem c1_sharing_counterexample :
    processMesh 7 origZero fanQuad constN1 [[0,1,2,3],[2,4,5,6]] =
      .ok ⟨[⟨0,0,0,1⟩, ⟨0,0,0,1⟩, ⟨0,0,0,1⟩],
           [(0,1,7), (8,2,3), (2,4,9), (7,5,6)],
           [(2,7), (0,8), (5,9)]⟩ ∧
    edge 2 0 ∉ (edgeIter [0,1,2,3]).toFinset ∧
    edge 2 5 ∉ (edgeIter [2,4,5,6]).toFinset :=
  ⟨by with_unfolding_all rfl, by decide, by decide⟩

/-- Claim C2, amended: a face reaching the non-triangle branch whose
number of distinct canonical boundary edges differs from its vertex count
makes the whole conversion fail (an `AssertionError` aborts
`PlyMesh.__init__`, so no mesh object is returned) — but the bare assert
does not identify the offending face, and a face with exactly 3 vertices
is never checked at all. -/
theorem c2_nonsimple_fails_fast (nverts : ℕ) (orig : ℕ → ℚ × ℚ × ℚ)
    (T : List ℕ → List ℕ) (N : List ℕ → ℚ) (faces : List (List ℕ))
    (hbad : ∃ f ∈ faces, f.length ≠ 3 ∧ (edgeIter f).toFinset.card ≠ f.length) :
    isErr (processMesh nverts orig T N faces) = true :=
  processFaces_err_of_bad hbad

/-- Witness for C2's amended theorem: the non-simple 4-gon `[0,1,0,1]`
(one distinct canonical boundary edge, four vertices) aborts the
conversion. -/
theorem c2_nonsimple_fails_fast_witness :
    (∃ f ∈ [[0,1,0,1]], f.length ≠ 3 ∧ (edgeIter f).toFinset.card ≠ f.length) ∧
    isErr (processMesh 2 origZero fanQuad constN1 [[0,1,0,1]]) = true :=
  ⟨⟨[0,1,0,1], by decide, by decide, by decide⟩,
   c2_nonsimple_fails_fast 2 origZero fanQuad constN1 [[0,1,0,1]]
     ⟨[0,1,0,1], by decide, by decide, by decide⟩⟩

/-- Counterexample to claim C2 as stated: `[0,0,1]` is a non-simple face
by the claim's own criterion (2 distinct canonical boundary edges ≠ 3
vertices), yet the conversion does not fail — 3-vertex faces skip the
validation entirely and the degenerate triangle is emitted. -/
theorem c2_unchecked_triangle_counterexample :
    (edgeIter [0,0,1]).toFinset.card = 2 ∧
    processMesh 2 origZero fanQuad constN1 [[0,0,1]] = .ok ⟨[], [(0,0,1)], []⟩ :=
  ⟨by decide, rfl⟩

/-- Claim C4: on every successful conversion the vertex-pool fill
`vtx_idx = nverts + dup.length` never exceeds `2 * nverts`, and the
triangle fill never exceeds the pre-computed
`total_tris = num_tris + num_interior_tris` bound (numpy would raise
before either bound could be passed). -/
theorem c4_pool_fill_bounds (nverts : ℕ) (orig : ℕ → ℚ × ℚ × ℚ)
    (T : List ℕ → List ℕ) (N : List ℕ → ℚ) (faces : List (List ℕ))
    (m : MeshState) (h : processMesh nverts orig T N faces = .ok m) :
    nverts + m.dup.length ≤ 2 * nverts ∧ m.tris.length ≤ total_tris faces := by
  obtain ⟨_, _, _, hd, ht, _, _⟩ := processFaces_extends h
  constructor
  · have hdd := hd (by simp)
    simp only [mkCtx] at hdd
    omega
  · have htt := ht (by simp)
    simpa [mkCtx] using htt

/-- Witness for C4 at a concrete one-triangle mesh. -/
theorem c4_pool_fill_bounds_witness :
    3 + ({ dup := [], tris := [(0,1,2)], internal := [] } : MeshState).dup.length
      ≤ 2 * 3 ∧
    ({ dup := [], tris := [(0,1,2)], internal := [] } : MeshState).tris.length
      ≤ total_tris [[0,1,2]] :=
  c4_pool_fill_bounds 3 origZero fanQuad constN1 [[0,1,2]] _ rfl

/-- Claim C6: the winding decision is made once per polygon — `flip` is
exactly the failure of `np.isclose(normcheck, 1.0, rtol=1e-1)` (with
numpy's default `atol = 1e-8`), and running the triangle loop with the
per-triangle conditional swap equals pre-swapping the second and third
local index of every output triple (all of them when `flip`, none
otherwise) and running a loop with no flip logic at all. -/
theorem c6_single_flip_decision :
    (∀ q : ℚ, flipDecision q = true ↔ ¬ (|q - 1| ≤ 1 / 100000000 + (1 / 10) * 1)) ∧
    (∀ (ctx : Ctx) (poly : List ℕ) (ext : Finset (ℕ × ℕ)) (flip : Bool)
       (ts : List Triple) (s : MeshState),
       processTriples ctx poly ext flip ts s =
         processTriples ctx poly ext false (applySwap flip ts) s) ∧
    (∀ (ctx : Ctx) (T : List ℕ → List ℕ) (N : List ℕ → ℚ) (s : MeshState)
       (poly : List ℕ),
       processNgon ctx T N s poly = processNgonPreSwapped ctx T N s poly) := by
  refine ⟨?_, processTriples_flip_swap, processNgon_preSwapped_eq⟩
  intro q
  simp [flipDecision, isclose_one]

/-- Claim C7, amended: a 3-vertex face is appended to the index pool
directly — original order, no vertex duplication, the dict and interior
flags untouched — but each index is stored reduced modulo the selected
index-dtype modulus; the three indices appear unmodified exactly when
each is below that modulus. -/
theorem c7_triangle_passthrough (ctx : Ctx) (T : List ℕ → List ℕ)
    (N : List ℕ → ℚ) (s : MeshState) (a b c : ℕ)
    (ha : a < ctx.M) (hb : b < ctx.M) (hc : c < ctx.M)
    (hcap : s.tris.length < ctx.totT) :
    processFace ctx T N s [a, b, c] =
      .ok ⟨s.dup, s.tris ++ [(a, b, c)], s.internal⟩ := by
  unfold processFace
  rw [if_pos (by simp)]
  unfold add_tri
  rw [if_pos hcap]
  show Except.ok
      { s with tris := s.tris ++ [(a % ctx.M, b % ctx.M, c % ctx.M)] } = _
  rw [Nat.mod_eq_of_lt ha, Nat.mod_eq_of_lt hb, Nat.mod_eq_of_lt hc]

/-- Witness for C7's amended theorem at a concrete face. -/
theorem c7_triangle_passthrough_witness :
    processFace ⟨3, origZero, 65536, 1⟩ fanQuad constN1 ⟨[], [], []⟩ [0, 1, 2] =
      .ok ⟨[], [(0, 1, 2)], []⟩ :=
  c7_triangle_passthrough ⟨3, origZero, 65536, 1⟩ fanQuad constN1 ⟨[], [], []⟩
    0 1 2 (by decide) (by decide) (by decide) (by decide)

/-- Counterexample to claim C7 as stated: a mesh of 70000 vertices with
the single triangular face `[0, 1, 69999]` has 1 < 30000 pre-computed
triangles, so 16-bit indices are chosen and the stored triangle is
`(0, 1, 69999 mod 2^16) = (0, 1, 4463)` — not the original indices. -/
theorem c7_wraparound_counterexample :
    total_tris [[0,1,69999]] < 30000 ∧
    processMesh 70000 origZero fanQuad constN1 [[0,1,69999]] =
      .ok ⟨[], [(0,1,4463)], []⟩ ∧
    ((0,1,4463) : Triple) ≠ (0,1,69999) :=
  ⟨by decide, rfl, by decide⟩

/-- Claim C8: the index element width is a function of the pre-computed
total triangle count alone — 16 bits exactly when it is below 30000, 32
bits exactly otherwise — and on every successful conversion every stored
index-component of every triangle is (uniformly) reduced below the single
modulus selected from that pre-computed count before the pool was filled. -/
theorem c8_index_width_policy :
    (∀ t : ℕ, t < 30000 ↔ index_bits t = 16) ∧
    (∀ t : ℕ, 30000 ≤ t ↔ index_bits t = 32) ∧
    (∀ (nverts : ℕ) (orig : ℕ → ℚ × ℚ × ℚ) (T : List ℕ → List ℕ)
       (N : List ℕ → ℚ) (faces : List (List ℕ)) (m : MeshState),
       processMesh nverts orig T N faces = .ok m →
       ∀ t ∈ m.tris, t.1 < indexModulus (total_tris faces) ∧
         t.2.1 < indexModulus (total_tris faces) ∧
         t.2.2 < indexModulus (total_tris faces)) := by
  refine ⟨?_, ?_, ?_⟩
  · intro t
    constructor
    · intro h
      simp [index_bits, h]
    · intro h
      by_cases hc : t < 30000
      · exact hc
      · simp [index_bits, hc] at h
  · intro t
    constructor
    · intro h
      have hc : ¬ t < 30000 := by omega
      simp [index_bits, hc]
    · intro h
      by_cases hc : t < 30000
      · simp [index_bits, hc] at h
      · omega
  · intro nverts orig T N faces m h t ht
    obtain ⟨_, _, _, _, _, _, hM⟩ := processFaces_extends h
    have hpos : 0 < (mkCtx nverts orig faces).M := by
      simp only [mkCtx, indexModulus]
      exact pow_pos (by norm_num) _
    have hall := hM hpos (by simp) t ht
    simpa [mkCtx, TriLt, indexModulus] using hall

/-- Witness for C8's third part at a concrete one-triangle mesh. -/
theorem c8_index_width_policy_witness :
    ((0:ℕ), (1:ℕ), (2:ℕ)).1 < indexModulus (total_tris [[0,1,2]]) ∧
    ((0:ℕ), (1:ℕ), (2:ℕ)).2.1 < indexModulus (total_tris [[0,1,2]]) ∧
    ((0:ℕ), (1:ℕ), (2:ℕ)).2.2 < indexModulus (total_tris [[0,1,2]]) :=
  c8_index_width_policy.2.2 3 origZero fanQuad constN1 [[0,1,2]]
    ⟨[], [(0,1,2)], []⟩ rfl (0,1,2) (by decide)

/-- Claim C9: a first internalization of `v` returning `(i, s2)` is
idempotent — asking again returns the same index `i` with the state
unchanged — the pool grows by at most one slot, and when `v` was fresh
the one new slot it got carries `interior = 1`. -/
theorem c9_internalize_idempotent (ctx : Ctx) (s : MeshState) (v i : ℕ)
    (s2 : MeshState) (h : internalize_vtx ctx s v = .ok (i, s2)) :
    internalize_vtx ctx s2 v = .ok (i, s2) ∧
    s2.dup.length ≤ s.dup.length + 1 ∧
    (s.internal.lookup v = none →
      s2.dup.length = s.dup.length + 1 ∧ (rowOf ctx s2 i).interior = 1) := by
  obtain ⟨ht, hlk, hcase⟩ := internalize_ok h
  refine ⟨?_, ?_, ?_⟩
  · unfold internalize_vtx
    rw [hlk]
  · obtain ⟨_, _, _, hb, _⟩ := internalize_extends h
    exact hb
  · intro hnone
    rcases hcase with ⟨hsome, _⟩ | ⟨_, hi, hdup, hint, hlt⟩
    · rw [hnone] at hsome
      cases hsome
    · constructor
      · simp [hdup]
      · subst hi
        unfold rowOf
        rw [if_neg (by omega)]
        have hsub : ctx.nverts + s.dup.length - ctx.nverts = s.dup.length := by
          omega
        rw [hsub, hdup]
        rw [List.getElem?_append_right (by omega)]
        simp

/-- Witness for C9 at a concrete fresh internalization. -/
theorem c9_internalize_idempotent_witness :
    internalize_vtx ⟨1, origZero, 65536, 1⟩ ⟨[⟨0,0,0,1⟩], [], [(0,1)]⟩ 0 =
      .ok (1, ⟨[⟨0,0,0,1⟩], [], [(0,1)]⟩) ∧
    (⟨[⟨0,0,0,1⟩], [], [(0,1)]⟩ : MeshState).dup.length ≤
      (⟨[], [], []⟩ : MeshState).dup.length + 1 ∧
    ((⟨[], [], []⟩ : MeshState).internal.lookup 0 = none →
      (⟨[⟨0,0,0,1⟩], [], [(0,1)]⟩ : MeshState).dup.length =
        (⟨[], [], []⟩ : MeshState).dup.length + 1 ∧
      (rowOf ⟨1, origZero, 65536, 1⟩ ⟨[⟨0,0,0,1⟩], [], [(0,1)]⟩ 1).interior = 1) :=
  c9_internalize_idempotent ⟨1, origZero, 65536, 1⟩ ⟨[], [], []⟩ 0 1
    ⟨[⟨0,0,0,1⟩], [], [(0,1)]⟩ rfl

end Athena

namespace Athena

/-- Claim C10: the buffers handed to Qt3D are sized and counted at the
pre-computed upper bounds, not at the actual fill — the position
attribute count is the full `2 * nverts` allocation, the index attribute
count is `3 * total_tris`, and every allocated-but-unfilled row is the
zero row resp. the degenerate `(0,0,0)` triple. -/
theorem c10_attr_counts_at_bounds (nverts : ℕ) (orig : ℕ → ℚ × ℚ × ℚ)
    (T : List ℕ → List ℕ) (N : List ℕ → ℚ) (faces : List (List ℕ))
    (m : MeshState) (h : processMesh nverts orig T N faces = .ok m) :
    positionAttrCount (mkCtx nverts orig faces) m = 2 * nverts ∧
    indexAttrCount (mkCtx nverts orig faces) = 3 * total_tris faces ∧
    (vertexBuffer (mkCtx nverts orig faces) m).length = 2 * nverts ∧
    (indexBuffer (mkCtx nverts orig faces) m).length = total_tris faces ∧
    (indexBuffer (mkCtx nverts orig faces) m).drop m.tris.length =
      List.replicate (total_tris faces - m.tris.length) ((0:ℕ), (0:ℕ), (0:ℕ)) ∧
    (∀ v, nverts + m.dup.length ≤ v →
      rowOf (mkCtx nverts orig faces) m v = zeroRow) := by
  obtain ⟨_, _, _, _, ht, _, _⟩ := processFaces_extends h
  have htris : m.tris.length ≤ total_tris faces := by
    simpa [mkCtx] using ht (by simp)
  refine ⟨?_, rfl, ?_, ?_, ?_, ?_⟩
  · simp [positionAttrCount, vertexBuffer, mkCtx]
  · simp [vertexBuffer, mkCtx]
  · simp only [indexBuffer, mkCtx, List.length_append, List.length_replicate]
    omega
  · simp only [indexBuffer, mkCtx]
    exact List.drop_left m.tris (List.replicate (total_tris faces - m.tris.length) (0, 0, 0))
  · intro v hv
    unfold rowOf
    rw [if_neg (by simp only [mkCtx]; omega)]
    rw [List.getElem?_eq_none (by simp only [mkCtx]; omega)]

/-- Witness for C10 at a concrete one-triangle mesh. -/
theorem c10_attr_counts_at_bounds_witness :
    positionAttrCount (mkCtx 3 origZero [[0,1,2]])
        ⟨[], [(0,1,2)], []⟩ = 2 * 3 ∧
    indexAttrCount (mkCtx 3 origZero [[0,1,2]]) = 3 * total_tris [[0,1,2]] ∧
    (vertexBuffer (mkCtx 3 origZero [[0,1,2]]) ⟨[], [(0,1,2)], []⟩).length = 2 * 3 ∧
    (indexBuffer (mkCtx 3 origZero [[0,1,2]]) ⟨[], [(0,1,2)], []⟩).length =
      total_tris [[0,1,2]] ∧
    (indexBuffer (mkCtx 3 origZero [[0,1,2]]) ⟨[], [(0,1,2)], []⟩).drop
        (⟨[], [(0,1,2)], []⟩ : MeshState).tris.length =
      List.replicate (total_tris [[0,1,2]] -
        (⟨[], [(0,1,2)], []⟩ : MeshState).tris.length) ((0:ℕ), (0:ℕ), (0:ℕ)) ∧
    (∀ v, 3 + (⟨[], [(0,1,2)], []⟩ : MeshState).dup.length ≤ v →
      rowOf (mkCtx 3 origZero [[0,1,2]]) ⟨[], [(0,1,2)], []⟩ v = zeroRow) :=
  c10_attr_counts_at_bounds 3 origZero fanQuad constN1 [[0,1,2]]
    ⟨[], [(0,1,2)], []⟩ rfl

end Athena

namespace Athena

/-! Preservation of the triangle-validity invariant (`TrisGood`) through
one loop-body triangle, under the spec's input and triangulator
contracts. -/

theorem internalizeChain_good {ctx : Ctx} {ext : Finset (ℕ × ℕ)}
    {s : MeshState} {va vb vc : ℕ} {s4 : MeshState}
    (hm : mapSnd ctx s) (hd : s.dup.length ≤ ctx.nverts)
    (hg : TrisGood ctx s) (hM : 2 * ctx.nverts ≤ ctx.M)
    (hva : va < ctx.nverts) (hvb : vb < ctx.nverts) (hvc : vc < ctx.nverts)
    (hab : va ≠ vb) (hac : va ≠ vc) (hbc : vb ≠ vc)
    (h : internalizeChain ctx ext s va vb vc = .ok s4) :
    mapSnd ctx s4 ∧ s4.dup.length ≤ ctx.nverts ∧ TrisGood ctx s4 := by
  unfold internalizeChain at h
  split at h
  · exact Except.noConfusion h
  · rename_i fA s1 heqA
    split at h
    · exact Except.noConfusion h
    · rename_i fB sB heqB
      split at h
      · exact Except.noConfusion h
      · rename_i fC s3 heqC
        obtain ⟨ht1, ⟨l1, hi1⟩, ⟨ld1, hd1⟩, hm1, hdb1, hf1⟩ :=
          maybeInternalize_spec hm heqA
        obtain ⟨ht2, ⟨l2, hi2⟩, ⟨ld2, hd2⟩, hm2, hdb2, hf2⟩ :=
          maybeInternalize_spec hm1 heqB
        obtain ⟨ht3, ⟨l3, hi3⟩, ⟨ld3, hd3⟩, hm3, hdb3, hf3⟩ :=
          maybeInternalize_spec hm2 heqC
        obtain ⟨htris4, hdup4, hint4, _⟩ := add_tri_ok h
        have hlen1 : s.dup.length ≤ s1.dup.length := by
          rw [hd1]; simp
        have hlen2 : s1.dup.length ≤ sB.dup.length := by
          rw [hd2]; simp
        have hlen3 : sB.dup.length ≤ s3.dup.length := by
          rw [hd3]; simp
        have hdb : s3.dup.length ≤ ctx.nverts := hdb3 (hdb2 (hdb1 hd))
        have hnodupB : (sB.internal.map Prod.snd).Nodup := by
          rw [hm2]; exact List.nodup_range' _ _
        have hnodup3 : (s3.internal.map Prod.snd).Nodup := by
          rw [hm3]; exact List.nodup_range' _ _
        have hfA_lt : fA < ctx.nverts + s3.dup.length := by
          rcases hf1 with ⟨rfl, _⟩ | ⟨_, _, hlt⟩ <;> omega
        have hfB_lt : fB < ctx.nverts + s3.dup.length := by
          rcases hf2 with ⟨rfl, _⟩ | ⟨_, _, hlt⟩ <;> omega
        have hfC_lt : fC < ctx.nverts + s3.dup.length := by
          rcases hf3 with ⟨rfl, _⟩ | ⟨_, _, hlt⟩ <;> omega
        have hAB : fA ≠ fB := by
          rcases hf1 with ⟨rfl, hs1⟩ | ⟨hlkA, hgeA, _⟩ <;>
            rcases hf2 with ⟨rfl, hs2⟩ | ⟨hlkB, hgeB, _⟩
          · exact hab
          · omega
          · omega
          · have hlkA2 : sB.internal.lookup va = some fA := by
              rw [hi2]
              exact lookup_append_some hlkA
            exact lookup_ne_of_nodup hnodupB hab hlkA2 hlkB
        have hAC : fA ≠ fC := by
          rcases hf1 with ⟨rfl, hs1⟩ | ⟨hlkA, hgeA, _⟩ <;>
            rcases hf3 with ⟨rfl, hs3⟩ | ⟨hlkC, hgeC, _⟩
          · exact hac
          · omega
          · omega
          · have hlkA3 : s3.internal.lookup va = some fA := by
              rw [hi3, hi2]
              exact lookup_append_some (lookup_append_some hlkA)
            exact lookup_ne_of_nodup hnodup3 hac hlkA3 hlkC
        have hBC : fB ≠ fC := by
          rcases hf2 with ⟨rfl, hs2⟩ | ⟨hlkB, hgeB, _⟩ <;>
            rcases hf3 with ⟨rfl, hs3⟩ | ⟨hlkC, hgeC, _⟩
          · exact hbc
          · omega
          · omega
          · have hlkB3 : s3.internal.lookup vb = some fB := by
              rw [hi3]
              exact lookup_append_some hlkB
            exact lookup_ne_of_nodup hnodup3 hbc hlkB3 hlkC
        have hdup4len : s4.dup.length = s3.dup.length := by rw [hdup4]
        refine ⟨?_, ?_, ?_⟩
        · unfold mapSnd at hm3 ⊢
          rw [hint4, hdup4]
          exact hm3
        · omega
        · intro u hu
          rw [htris4] at hu
          rcases List.mem_append.mp hu with hu | hu
          · have hu0 : u ∈ s.tris := by
              rw [← ht1, ← ht2, ← ht3]
              exact hu
            obtain ⟨hdist, hb1, hb2, hb3⟩ := hg u hu0
            exact ⟨hdist, by omega, by omega, by omega⟩
          · simp only [List.mem_singleton] at hu
            subst hu
            have hmA : fA % ctx.M = fA := Nat.mod_eq_of_lt (by omega)
            have hmB : fB % ctx.M = fB := Nat.mod_eq_of_lt (by omega)
            have hmC : fC % ctx.M = fC := Nat.mod_eq_of_lt (by omega)
            rw [hmA, hmB, hmC]
            refine ⟨⟨hAB, hAC, hBC⟩, ?_, ?_, ?_⟩
            · show fA < ctx.nverts + s4.dup.length
              omega
            · show fB < ctx.nverts + s4.dup.length
              omega
            · show fC < ctx.nverts + s4.dup.length
              omega

end Athena

namespace Athena

theorem processTriple_good {ctx : Ctx} {poly : List ℕ} {ext : Finset (ℕ × ℕ)}
    {flip : Bool} {s : MeshState} {t : Triple} {s2 : MeshState}
    (hm : mapSnd ctx s) (hd : s.dup.length ≤ ctx.nverts)
    (hg : TrisGood ctx s) (hM : 2 * ctx.nverts ≤ ctx.M)
    (hpoly : poly.Nodup) (hpv : ∀ v ∈ poly, v < ctx.nverts)
    (ht : t.1 ≠ t.2.1 ∧ t.1 ≠ t.2.2 ∧ t.2.1 ≠ t.2.2)
    (h : processTriple ctx poly ext flip s t = .ok s2) :
    mapSnd ctx s2 ∧ s2.dup.length ≤ ctx.nverts ∧ TrisGood ctx s2 := by
  unfold processTriple at h
  split at h
  · rename_i hb
    obtain ⟨h1, h2, h3⟩ := hb
    have e1 : poly.getD t.1 0 = poly[t.1] := List.getD_eq_getElem poly 0 h1
    have e2 : poly.getD t.2.1 0 = poly[t.2.1] := List.getD_eq_getElem poly 0 h2
    have e3 : poly.getD t.2.2 0 = poly[t.2.2] := List.getD_eq_getElem poly 0 h3
    have g1 : poly.getD t.1 0 < ctx.nverts := by
      rw [e1]
      exact hpv _ (List.getElem_mem h1)
    have g2 : poly.getD t.2.1 0 < ctx.nverts := by
      rw [e2]
      exact hpv _ (List.getElem_mem h2)
    have g3 : poly.getD t.2.2 0 < ctx.nverts := by
      rw [e3]
      exact hpv _ (List.getElem_mem h3)
    have q12 : poly.getD t.1 0 ≠ poly.getD t.2.1 0 := by
      rw [e1, e2]
      exact fun he => ht.1 (hpoly.getElem_inj_iff.mp he)
    have q13 : poly.getD t.1 0 ≠ poly.getD t.2.2 0 := by
      rw [e1, e3]
      exact fun he => ht.2.1 (hpoly.getElem_inj_iff.mp he)
    have q23 : poly.getD t.2.1 0 ≠ poly.getD t.2.2 0 := by
      rw [e2, e3]
      exact fun he => ht.2.2 (hpoly.getElem_inj_iff.mp he)
    cases flip
    · exact internalizeChain_good hm hd hg hM g1 g2 g3 q12 q13 q23 h
    · exact internalizeChain_good hm hd hg hM g1 g3 g2 q13 q12 (Ne.symm q23) h
  · exact Except.noConfusion h

theorem processTriples_good {ctx : Ctx} {poly : List ℕ} {ext : Finset (ℕ × ℕ)}
    {flip : Bool} {ts : List Triple} {s s2 : MeshState}
    (hm : mapSnd ctx s) (hd : s.dup.length ≤ ctx.nverts)
    (hg : TrisGood ctx s) (hM : 2 * ctx.nverts ≤ ctx.M)
    (hpoly : poly.Nodup) (hpv : ∀ v ∈ poly, v < ctx.nverts)
    (htall : ∀ t ∈ ts, t.1 ≠ t.2.1 ∧ t.1 ≠ t.2.2 ∧ t.2.1 ≠ t.2.2)
    (h : processTriples ctx poly ext flip ts s = .ok s2) :
    mapSnd ctx s2 ∧ s2.dup.length ≤ ctx.nverts ∧ TrisGood ctx s2 := by
  induction ts generalizing s with
  | nil =>
    unfold processTriples at h
    simp only [Except.ok.injEq] at h
    subst h
    exact ⟨hm, hd, hg⟩
  | cons t ts ih =>
    unfold processTriples at h
    split at h
    · exact Except.noConfusion h
    · rename_i s1 heq
      obtain ⟨hm1, hd1, hg1⟩ := processTriple_good hm hd hg hM hpoly hpv
        (htall t (by simp)) heq
      exact ih hm1 hd1 hg1 (fun u hu => htall u (by simp [hu])) h

theorem processNgon_good {ctx : Ctx} {T : List ℕ → List ℕ} {N : List ℕ → ℚ}
    {s : MeshState} {poly : List ℕ} {s2 : MeshState}
    (hm : mapSnd ctx s) (hd : s.dup.length ≤ ctx.nverts)
    (hg : TrisGood ctx s) (hM : 2 * ctx.nverts ≤ ctx.M)
    (hpoly : poly.Nodup) (hpv : ∀ v ∈ poly, v < ctx.nverts)
    (htall : ∀ t ∈ triples (T poly), t.1 ≠ t.2.1 ∧ t.1 ≠ t.2.2 ∧ t.2.1 ≠ t.2.2)
    (h : processNgon ctx T N s poly = .ok s2) :
    mapSnd ctx s2 ∧ s2.dup.length ≤ ctx.nverts ∧ TrisGood ctx s2 := by
  unfold processNgon at h
  split at h
  · exact Except.noConfusion h
  · split at h
    · exact Except.noConfusion h
    · split at h
      · exact Except.noConfusion h
      · split at h
        · exact Except.noConfusion h
        · split at h
          · exact Except.noConfusion h
          · split at h
            · exact Except.noConfusion h
            · exact processTriples_good hm hd hg hM hpoly hpv htall h

theorem processFace_good {ctx : Ctx} {T : List ℕ → List ℕ} {N : List ℕ → ℚ}
    {s : MeshState} {poly : List ℕ} {s2 : MeshState}
    (hm : mapSnd ctx s) (hd : s.dup.length ≤ ctx.nverts)
    (hg : TrisGood ctx s) (hM : 2 * ctx.nverts ≤ ctx.M)
    (hpoly : poly.Nodup) (hpv : ∀ v ∈ poly, v < ctx.nverts)
    (htall : ∀ t ∈ triples (T poly), t.1 ≠ t.2.1 ∧ t.1 ≠ t.2.2 ∧ t.2.1 ≠ t.2.2)
    (h : processFace ctx T N s poly = .ok s2) :
    mapSnd ctx s2 ∧ s2.dup.length ≤ ctx.nverts ∧ TrisGood ctx s2 := by
  unfold processFace at h
  split at h
  · rename_i hlen
    obtain ⟨htris, hdup, hint, _⟩ := add_tri_ok h
    have h0 : 0 < poly.length := by omega
    have h1 : 1 < poly.length := by omega
    have h2 : 2 < poly.length := by omega
    have e0 : poly.getD 0 0 = poly[0] := List.getD_eq_getElem poly 0 h0
    have e1 : poly.getD 1 0 = poly[1] := List.getD_eq_getElem poly 0 h1
    have e2 : poly.getD 2 0 = poly[2] := List.getD_eq_getElem poly 0 h2
    have g0 : poly.getD 0 0 < ctx.nverts := by
      rw [e0]
      exact hpv _ (List.getElem_mem h0)
    have g1 : poly.getD 1 0 < ctx.nverts := by
      rw [e1]
      exact hpv _ (List.getElem_mem h1)
    have g2 : poly.getD 2 0 < ctx.nverts := by
      rw [e2]
      exact hpv _ (List.getElem_mem h2)
    have q01 : poly.getD 0 0 ≠ poly.getD 1 0 := by
      rw [e0, e1]
      exact fun he => absurd (hpoly.getElem_inj_iff.mp he) (by omega)
    have q02 : poly.getD 0 0 ≠ poly.getD 2 0 := by
      rw [e0, e2]
      exact fun he => absurd (hpoly.getElem_inj_iff.mp he) (by omega)
    have q12 : poly.getD 1 0 ≠ poly.getD 2 0 := by
      rw [e1, e2]
      exact fun he => absurd (hpoly.getElem_inj_iff.mp he) (by omega)
    have hdup2 : s2.dup.length = s.dup.length := by rw [hdup]
    refine ⟨?_, by omega, ?_⟩
    · unfold mapSnd at hm ⊢
      rw [hint, hdup]
      exact hm
    · intro u hu
      rw [htris] at hu
      rcases List.mem_append.mp hu with hu | hu
      · obtain ⟨hdist, hb1, hb2, hb3⟩ := hg u hu
        exact ⟨hdist, by omega, by omega, by omega⟩
      · simp only [List.mem_singleton] at hu
        subst hu
        have hm0 : poly.getD 0 0 % ctx.M = poly.getD 0 0 :=
          Nat.mod_eq_of_lt (by omega)
        have hm1 : poly.getD 1 0 % ctx.M = poly.getD 1 0 :=
          Nat.mod_eq_of_lt (by omega)
        have hm2 : poly.getD 2 0 % ctx.M = poly.getD 2 0 :=
          Nat.mod_eq_of_lt (by omega)
        show ((poly.getD 0 0 % ctx.M) ≠ (poly.getD 1 0 % ctx.M) ∧
            (poly.getD 0 0 % ctx.M) ≠ (poly.getD 2 0 % ctx.M) ∧
            (poly.getD 1 0 % ctx.M) ≠ (poly.getD 2 0 % ctx.M)) ∧
          (poly.getD 0 0 % ctx.M) < ctx.nverts + s2.dup.length ∧
          (poly.getD 1 0 % ctx.M) < ctx.nverts + s2.dup.length ∧
          (poly.getD 2 0 % ctx.M) < ctx.nverts + s2.dup.length
        rw [hm0, hm1, hm2]
        exact ⟨⟨q01, q02, q12⟩, by omega, by omega, by omega⟩
  · exact processNgon_good hm hd hg hM hpoly hpv htall h

theorem processFaces_good {ctx : Ctx} {T : List ℕ → List ℕ} {N : List ℕ → ℚ}
    {fs : List (List ℕ)} {s s2 : MeshState}
    (hm : mapSnd ctx s) (hd : s.dup.length ≤ ctx.nverts)
    (hg : TrisGood ctx s) (hM : 2 * ctx.nverts ≤ ctx.M)
    (hfs : ∀ f ∈ fs, f.Nodup ∧ ∀ v ∈ f, v < ctx.nverts)
    (htall : ∀ f ∈ fs, ∀ t ∈ triples (T f),
      t.1 ≠ t.2.1 ∧ t.1 ≠ t.2.2 ∧ t.2.1 ≠ t.2.2)
    (h : processFaces ctx T N fs s = .ok s2) :
    mapSnd ctx s2 ∧ s2.dup.length ≤ ctx.nverts ∧ TrisGood ctx s2 := by
  induction fs generalizing s with
  | nil =>
    unfold processFaces at h
    simp only [Except.ok.injEq] at h
    subst h
    exact ⟨hm, hd, hg⟩
  | cons f fs ih =>
    unfold processFaces at h
    split at h
    · exact Except.noConfusion h
    · rename_i s1 heq
      obtain ⟨hm1, hd1, hg1⟩ := processFace_good hm hd hg hM
        (hfs f (by simp)).1 (hfs f (by simp)).2 (htall f (by simp)) heq
      exact ih hm1 hd1 hg1 (fun g hgm => hfs g (by simp [hgm]))
        (fun g hgm => htall g (by simp [hgm])) h

end Athena

namespace Athena

/-- Claim C5, amended: under the spec's input contract (every face is a
list of pairwise-distinct indices into the original vertex array), the
triangulator contract (every emitted triple names three distinct local
indices), and the additional condition — which the counterexample forces —
that the full possible vertex-pool fill `2 * nverts` does not exceed the
selected index-dtype modulus, every triangle of the output index pool has
three pairwise-distinct components, each a valid index of the filled part
of the vertex pool. -/
theorem c5_output_triangles_valid (nverts : ℕ) (orig : ℕ → ℚ × ℚ × ℚ)
    (T : List ℕ → List ℕ) (N : List ℕ → ℚ) (faces : List (List ℕ))
    (m : MeshState)
    (hfaces : ∀ f ∈ faces, f.Nodup ∧ ∀ v ∈ f, v < nverts)
    (htri : ∀ f ∈ faces, ∀ t ∈ triples (T f),
      t.1 ≠ t.2.1 ∧ t.1 ≠ t.2.2 ∧ t.2.1 ≠ t.2.2)
    (hM : 2 * nverts ≤ indexModulus (total_tris faces))
    (h : processMesh nverts orig T N faces = .ok m) :
    ∀ t ∈ m.tris,
      (t.1 ≠ t.2.1 ∧ t.1 ≠ t.2.2 ∧ t.2.1 ≠ t.2.2) ∧
      t.1 < nverts + m.dup.length ∧ t.2.1 < nverts + m.dup.length ∧
      t.2.2 < nverts + m.dup.length := by
  have hm0 : mapSnd (mkCtx nverts orig faces) ⟨[], [], []⟩ := by
    unfold mapSnd
    rfl
  have hg0 : TrisGood (mkCtx nverts orig faces) ⟨[], [], []⟩ := by
    intro t ht
    simp at ht
  obtain ⟨hmf, hdf, hgf⟩ := processFaces_good hm0 (by simp [mkCtx])
    hg0 (by simpa [mkCtx] using hM) hfaces htri h
  intro t ht
  exact hgf t ht

/-- Witness for C5's amended theorem at the concrete one-triangle mesh
`[[0,1,2]]`, instantiated at its single output triangle `(0,1,2)`. -/
theorem c5_output_triangles_valid_witness :
    ((((0:ℕ),(1:ℕ),(2:ℕ)) : Triple).1 ≠ (((0:ℕ),(1:ℕ),(2:ℕ)) : Triple).2.1 ∧
     (((0:ℕ),(1:ℕ),(2:ℕ)) : Triple).1 ≠ (((0:ℕ),(1:ℕ),(2:ℕ)) : Triple).2.2 ∧
     (((0:ℕ),(1:ℕ),(2:ℕ)) : Triple).2.1 ≠ (((0:ℕ),(1:ℕ),(2:ℕ)) : Triple).2.2) ∧
    (((0:ℕ),(1:ℕ),(2:ℕ)) : Triple).1 <
      3 + ({ dup := [], tris := [(0,1,2)], internal := [] } : MeshState).dup.length ∧
    (((0:ℕ),(1:ℕ),(2:ℕ)) : Triple).2.1 <
      3 + ({ dup := [], tris := [(0,1,2)], internal := [] } : MeshState).dup.length ∧
    (((0:ℕ),(1:ℕ),(2:ℕ)) : Triple).2.2 <
      3 + ({ dup := [], tris := [(0,1,2)], internal := [] } : MeshState).dup.length :=
  c5_output_triangles_valid 3 origZero fanQuad constN1 [[0,1,2]]
    ⟨[], [(0,1,2)], []⟩ (by decide) (by decide) (by decide) rfl
    (0,1,2) (by decide)

/-- Counterexample to claim C5 as stated: the mesh with 70000 original
vertices and the single valid, vertex-distinct face `[0, 4463, 69999]`
has one pre-computed triangle, so 16-bit indices are selected, and the
stored triangle is `(0, 4463, 69999 mod 2^16) = (0, 4463, 4463)` — its
second and third components are equal, violating pairwise distinctness. -/
theorem c5_wraparound_counterexample :
    ([0, 4463, 69999] : List ℕ).Nodup ∧ (∀ v ∈ [0, 4463, 69999], v < 70000) ∧
    processMesh 70000 origZero fanQuad constN1 [[0,4463,69999]] =
      .ok ⟨[], [(0,4463,4463)], []⟩ ∧
    ¬ ((4463 : ℕ) ≠ 4463) :=
  ⟨by decide, by decide, rfl, by decide⟩

end Athena
